import Mathlib

/-!
Shallow embedding of the Contazoom sales-synchronization code.

Money values and JavaScript numbers are modelled as exact rationals (ℚ);
nullable values as `Option`; JavaScript objects only as far as the embedded
functions inspect them.  Each definition is translated from the named source
function; comments cite the file and symbol it embeds.
-/

/-- JavaScript `Number.EPSILON` (2⁻⁵²) as an exact rational. -/
def jsEpsilon : ℚ := 1 / 4503599627370496

/-- JavaScript `Math.round`: round half-up (ties toward positive infinity). -/
def jsRound (x : ℚ) : ℤ := ⌊x + 1 / 2⌋

/-- Embeds `roundCurrency` (sync module): `Math.round((v + Number.EPSILON) * 100) / 100`,
then normalizing `-0` to `0` — a no-op over ℚ, where there is no negative zero. -/
def roundCurrency (v : ℚ) : ℚ := ((jsRound ((v + jsEpsilon) * 100) : ℤ) : ℚ) / 100

/-- Embeds the parameter object of `calcularFreteAdjust` (src/lib/frete.ts). -/
structure FreteAdjustParams where
  shipment_logistic_type : String
  base_cost : Option ℚ
  shipment_list_cost : Option ℚ
  shipping_option_cost : Option ℚ
  shipment_cost : Option ℚ
  order_cost : Option ℚ
  quantity : ℚ
deriving DecidableEq

/-- One numbered block of `calcularFreteAdjust`: when `cond` holds, return the
negated first candidate, else the negated second candidate, else fall through
(`none`). -/
def freteStepPick (cond : Prop) [Decidable cond] (a b : Option ℚ) : Option ℚ :=
  if cond then
    match a with
    | some x => some (-x)
    | none =>
      match b with
      | some y => some (-y)
      | none => none
  else none

/-- Embeds `calcularFreteAdjust` (src/lib/frete.ts, lines 13-65).  The source is a
sequence of early-return blocks; each block is a `freteStepPick` and the
first-class `<|>` chain reproduces the early-return fall-through. -/
def calcularFreteAdjust (p : FreteAdjustParams) : ℚ :=
  ((freteStepPick
      (p.shipment_logistic_type ∈ (["fulfillment", "cross_docking", "xd_drop_off"] : List String))
      p.base_cost p.shipment_list_cost) <|>
   (freteStepPick (p.shipment_logistic_type = "self_service")
      p.shipping_option_cost p.shipment_cost) <|>
   (freteStepPick (p.shipment_logistic_type = "drop_off")
      p.base_cost p.shipment_list_cost) <|>
   (p.order_cost.map (fun o => -o))).getD 0

/-- Freight-cost selection rule as the specification words it: a by-type dispatch,
first-match-wins, with the order-level cost as common fallback and `0` when
everything is null.  Written from the spec sentence, to be compared with
`calcularFreteAdjust`. -/
def freteSpecSelect (p : FreteAdjustParams) : ℚ :=
  let fallback : ℚ :=
    match p.order_cost with
    | some o => -o
    | none => 0
  let pick2 : Option ℚ → Option ℚ → ℚ := fun a b =>
    match a with
    | some x => -x
    | none =>
      match b with
      | some y => -y
      | none => fallback
  if p.shipment_logistic_type ∈ (["fulfillment", "cross_docking", "xd_drop_off"] : List String) then
    pick2 p.base_cost p.shipment_list_cost
  else if p.shipment_logistic_type = "self_service" then
    pick2 p.shipping_option_cost p.shipment_cost
  else if p.shipment_logistic_type = "drop_off" then
    pick2 p.base_cost p.shipment_list_cost
  else fallback

/-- Embeds the label table of `calculateFreightAdjustment` (sync module). -/
def adjustmentLabel (lt : String) : String :=
  if lt = "self_service" then "FLEX"
  else if lt = "drop_off" then "Correios"
  else if lt = "xd_drop_off" then "Agência"
  else if lt = "fulfillment" then "FULL"
  else if lt = "cross_docking" then "Coleta"
  else lt

/-- Embeds the `orderCost` computation of `calculateFreightAdjustment`:
`unitPrice !== null && quantity ? unitPrice * quantity : null`; the JS
truthiness test on `quantity` rejects both `null` and `0`. -/
def deriveOrderCost (unitPrice quantity : Option ℚ) : Option ℚ :=
  match unitPrice, quantity with
  | some u, some q => if q = 0 then none else some (u * q)
  | _, _ => none

/-- Embeds `calculateFreightAdjustment` (sync module, lines 217-257): wraps
`calcularFreteAdjust`, discards the ±999 sentinel, rounds the override and
labels its source.  `!logisticType` is JS-falsy for both `null` and `""`. -/
def calculateFreightAdjustment (logisticType : Option String)
    (unitPrice quantity baseCost listCost shippingOptionCost shipmentCost : Option ℚ) :
    Option ℚ × Option String :=
  match logisticType with
  | none => (none, none)
  | some lt =>
    if lt = "" then (none, none)
    else
      let freteAdjust := calcularFreteAdjust
        ⟨lt, baseCost, listCost, shippingOptionCost, shipmentCost,
          deriveOrderCost unitPrice quantity, quantity.getD 0⟩
      if |freteAdjust| = 999 then (none, none)
      else (some (roundCurrency freteAdjust), some (adjustmentLabel lt))

/-- Result record of `calculateMargemContribuicao`. -/
structure MargemResult where
  valor : ℚ
  isMargemReal : Bool
deriving DecidableEq

/-- Embeds `calculateMargemContribuicao` (sync module lines 368-394, worker module
lines 325-346; the two copies are identical).  `taxaPlataforma || 0` maps both
`null` and `0` to `0`. -/
def calculateMargemContribuicao (valorTotal : ℚ) (taxaPlataforma : Option ℚ)
    (frete : ℚ) (cmv : Option ℚ) : MargemResult :=
  let taxa : ℚ :=
    match taxaPlataforma with
    | none => 0
    | some t => if t = 0 then 0 else t
  match cmv with
  | some c =>
    if 0 < c then
      ⟨roundCurrency (valorTotal + taxa + frete - c), true⟩
    else
      ⟨roundCurrency (valorTotal + taxa + frete), false⟩
  | none => ⟨roundCurrency (valorTotal + taxa + frete), false⟩

/-- JavaScript numbers as far as `toFiniteNumber` distinguishes them: a finite
value, or one of the non-finite values `NaN`, `Infinity`, `-Infinity`. -/
inductive JSNum
  | finite (q : ℚ)
  | nan
  | posInf
  | negInf
deriving DecidableEq

/-- JavaScript `Number.isFinite`. -/
def jsIsFinite : JSNum → Bool
  | .finite _ => true
  | _ => false

/-- JavaScript values as far as `toFiniteNumber` distinguishes them by `typeof`. -/
inductive JSValue
  | num (n : JSNum)
  | str (s : String)
  | boolean (b : Bool)
  | jsNull
  | undef
  | obj
deriving DecidableEq

/-- JavaScript whitespace test used by `String.prototype.trim` (the code points
relevant to order ids and numeric strings). -/
def jsWhitespace (c : Char) : Bool := c = ' ' ∨ c = '\t' ∨ c = '\n' ∨ c = '\r'

/-- JavaScript `String.prototype.trim`: strip whitespace from both ends. -/
def jsTrim (s : String) : String :=
  ⟨(((s.data.dropWhile jsWhitespace).reverse).dropWhile jsWhitespace).reverse⟩

/-- Embeds `toFiniteNumber` (sync module lines 113-120, worker module lines
290-297; identical copies): finite numbers pass through, non-empty strings are
parsed by `Number(...)` — modelled by the parameter `parseNum` — and kept only
when finite, everything else is `null`.  The return type `Option JSNum` keeps
the non-finite values representable, so finiteness of the result is a theorem
about the guards, not about the type. -/
def toFiniteNumber (parseNum : String → JSNum) : JSValue → Option JSNum
  | .num n => if jsIsFinite n then some n else none
  | .str s =>
    if jsTrim s ≠ "" then
      if jsIsFinite (parseNum s) then some (parseNum s) else none
    else none
  | _ => none

/-- The raw order object, as far as the dedup logic inspects it: only the `id`
field (already coerced by `String(...)`) matters.  `id = none` models a missing,
`undefined` or `null` id. -/
structure RawOrder where
  id : Option String
deriving DecidableEq

/-- Embeds `MeliOrderPayload`, as far as deduplication inspects it: the wrapped
raw order (`none` models a missing/null `order` field) and `tag`, standing for
all remaining payload fields, so that distinct payloads may carry equal ids. -/
structure MeliOrderPayload where
  ord : Option RawOrder
  tag : ℕ
deriving DecidableEq

/-- Embeds `extractOrderIdFromPayload` (sync module lines 1301-1308): null/missing
order or id gives `null`; otherwise the id is trimmed and an empty result is
rejected. -/
def extractOrderIdFromPayload (p : MeliOrderPayload) : Option String :=
  match p.ord with
  | none => none
  | some raw =>
    match raw.id with
    | none => none
    | some s =>
      let t := jsTrim s
      if t = "" then none else some t

/-- Loop of `deduplicateOrders` (sync module lines 1310-1332): `seen` is the set
of ids already kept, the first component collects `uniqueOrders` in input
order, the second counts `duplicates`. -/
def dedupGo (seen : List String) : List MeliOrderPayload → List MeliOrderPayload × ℕ
  | [] => ([], 0)
  | o :: rest =>
    match extractOrderIdFromPayload o with
    | none =>
      let r := dedupGo seen rest
      (o :: r.1, r.2)
    | some oid =>
      if oid ∈ seen then
        let r := dedupGo seen rest
        (r.1, r.2 + 1)
      else
        let r := dedupGo (oid :: seen) rest
        (o :: r.1, r.2)

/-- Embeds `deduplicateOrders` (sync module lines 1310-1332). -/
def deduplicateOrders (orders : List MeliOrderPayload) : List MeliOrderPayload × ℕ :=
  dedupGo [] orders

/-- The extractable external ids of a batch, in input order. -/
def extractableIds (orders : List MeliOrderPayload) : List String :=
  orders.filterMap extractOrderIdFromPayload

/-- Number of distinct extractable external ids of a batch. -/
def distinctIdCount (orders : List MeliOrderPayload) : ℕ :=
  (extractableIds orders).dedup.length

/-- Whether a payload's extractable external id equals `oid`. -/
def hasId (oid : String) (o : MeliOrderPayload) : Bool :=
  extractOrderIdFromPayload o = some oid

/-- Outcome of one `fetch` attempt: a resolved response (any status) or a
network-level rejection. -/
inductive FetchOutcome
  | resp (status : ℕ)
  | netErr (msg : String)
deriving DecidableEq

/-- Result of `fetchWithRetry`: a returned response or a thrown error. -/
inductive FetchResult
  | success (status : ℕ)
  | thrown (msg : String)
deriving DecidableEq

/-- The `response.ok` predicate of the Fetch API: status in 200-299. -/
def respOk (status : ℕ) : Bool := 200 ≤ status && status < 300

/-- Embeds `isRetryableError` (sync module lines 477-479). -/
def isRetryableError (status : ℕ) : Bool :=
  decide (status ∈ ([429, 500, 502, 503, 504] : List ℕ))

/-- Loop body of `fetchWithRetry` (sync module lines 491-602).  `outcomes n` is
the environment's answer to attempt `n`; `fuel` counts the remaining loop
iterations (`maxRetries - attempt`); the second component of the result counts
the attempts actually made.  Backoff sleeps and progress events do not affect
the returned value and are not modelled. -/
def fetchWithRetryGo (outcomes : ℕ → FetchOutcome) (maxRetries : ℕ) :
    ℕ → Option String → Option ℕ → ℕ → FetchResult × ℕ
  | attempt, lastErr, lastResp, 0 =>
    match lastResp with
    | some s =>
      if respOk s then (FetchResult.thrown (lastErr.getD "Falha apos multiplas tentativas"), attempt)
      else (FetchResult.success s, attempt)
    | none => (FetchResult.thrown (lastErr.getD "Falha apos multiplas tentativas"), attempt)
  | attempt, _lastErr, lastResp, fuel + 1 =>
    match outcomes attempt with
    | .resp s =>
      if respOk s then (FetchResult.success s, attempt + 1)
      else if s = 401 ∨ s = 403 then (FetchResult.success s, attempt + 1)
      else if isRetryableError s = false then (FetchResult.success s, attempt + 1)
      else fetchWithRetryGo outcomes maxRetries (attempt + 1)
             (some ("HTTP " ++ toString s)) (some s) fuel
    | .netErr m =>
      if attempt = maxRetries - 1 then (FetchResult.thrown m, attempt + 1)
      else fetchWithRetryGo outcomes maxRetries (attempt + 1) (some m) lastResp fuel

/-- Embeds `fetchWithRetry` (sync module lines 491-602). -/
def fetchWithRetry (outcomes : ℕ → FetchOutcome) (maxRetries : ℕ) : FetchResult × ℕ :=
  fetchWithRetryGo outcomes maxRetries 0 none none maxRetries

/-- One day in milliseconds, the step of `setDate(getDate() + n)` under UTC. -/
def dayMs : ℤ := 86400000

/-- The upstream offset ceiling `MAX_OFFSET` of `fetchOrdersInDateRange`. -/
def maxOffsetCeiling : ℕ := 9950

/-- Sub-period length selection of `fetchOrdersInDateRange`: 7 days when the
probed total exceeds 50 000, else 14 days. -/
def subPeriodDaysOf (totalInPeriod : ℕ) : ℤ :=
  if totalInPeriod > 50000 then 7 else 14

mutual
/-- Recursion skeleton of `fetchOrdersInDateRange` (sync module lines 1032-1132):
`totalOf lo hi` is the total the count-only probe reports for the range
`[lo, hi]` (times in ms).  When the total exceeds the ceiling the range is
split and each sub-range is recursed on; otherwise the range itself is a leaf
fetched by direct pagination.  The function returns the list of leaf ranges,
`none` when `fuel` recursion steps do not suffice — so a `none` for every fuel
exhibits non-termination of the unbounded original. -/
def splitLeaves (totalOf : ℤ → ℤ → ℕ) : ℕ → ℤ → ℤ → Option (List (ℤ × ℤ))
  | 0, _, _ => none
  | fuel + 1, dFrom, dTo =>
    let total := totalOf dFrom dTo
    if total > maxOffsetCeiling then
      splitLoop totalOf fuel dFrom dTo (subPeriodDaysOf total * dayMs)
    else some [(dFrom, dTo)]

/-- The `while (currentStart < dateTo)` loop of `fetchOrdersInDateRange`:
`currentEnd = min(currentStart + subPeriodDays, dateTo)`, recurse on
`[currentStart, currentEnd]`, then advance to `currentEnd + 1 day`. -/
def splitLoop (totalOf : ℤ → ℤ → ℕ) : ℕ → ℤ → ℤ → ℤ → Option (List (ℤ × ℤ))
  | 0, _, _, _ => none
  | fuel + 1, cur, dTo, periodMs =>
    if cur < dTo then
      match splitLeaves totalOf fuel cur (min (cur + periodMs) dTo),
            splitLoop totalOf fuel (min (cur + periodMs) dTo + dayMs) dTo periodMs with
      | some ls, some rest => some (ls ++ rest)
      | _, _ => none
    else some []
end

/-- Embeds the request body fields the sync `POST` handler reads. -/
structure SyncRequestBody where
  accountIds : List String
  quickMode : Option Bool
  fullSync : Option Bool
deriving DecidableEq

/-- Embeds `requestBody.quickMode !== false` (quick mode is on by default). -/
def deriveQuickMode (rb : SyncRequestBody) : Bool := rb.quickMode ≠ some false

/-- Embeds `requestBody.fullSync === true`. -/
def deriveFullSync (rb : SyncRequestBody) : Bool := rb.fullSync = some true

/-- Embeds the `hasMoreToSync` computation of the sync `POST` handler
(sync module line 2085). -/
def hasMoreToSync (forcedStop fullSync quickMode : Bool)
    (totalFetched totalExpected : ℕ) : Bool :=
  forcedStop || ((fullSync || quickMode) && decide (totalFetched < totalExpected))

/-- End-of-run effects of the sync `POST` handler: the flag, the parameters of
the scheduled follow-up invocation (if any), and whether the client-facing
notification channels get closed. -/
structure SyncFinish where
  hasMore : Bool
  followUp : Option (List String × Option Bool × Option Bool)
  connectionsClosed : Bool
deriving DecidableEq

/-- Embeds the tail of the sync `POST` handler (sync module lines 2082-2147):
compute `hasMoreToSync`; when set, fire a follow-up `POST` with the raw request
parameters; close the SSE connections only when nothing remains. -/
def finishSync (rb : SyncRequestBody) (forcedStop : Bool)
    (totalFetched totalExpected : ℕ) : SyncFinish :=
  let more := hasMoreToSync forcedStop (deriveFullSync rb) (deriveQuickMode rb)
    totalFetched totalExpected
  ⟨more,
   if more then some (rb.accountIds, rb.quickMode, rb.fullSync) else none,
   !more⟩

/-- Lexicographic code-unit comparison on character lists — the order the
default JavaScript `Array.prototype.sort()` applies to string elements. -/
def charListLe : List Char → List Char → Bool
  | [], _ => true
  | _ :: _, [] => false
  | x :: xs, y :: ys => if x = y then charListLe xs ys else decide (x < y)

/-- Lexicographic string comparison, modelling the default `sort()` comparator. -/
def strLe (a b : String) : Bool := charListLe a.data b.data

/-- Insertion step of the sort used to model `queueKeys.sort()`. -/
def insertSorted (x : String) : List String → List String
  | [] => [x]
  | y :: ys => if strLe x y then x :: y :: ys else y :: insertSorted x ys

/-- Model of `queueKeys.sort()`: a comparison sort under `strLe`; any
comparison sort is observationally equal here, only the sorted order matters. -/
def sortStrings : List String → List String
  | [] => []
  | x :: xs => insertSorted x (sortStrings xs)

/-- Association-list read, modelling a Redis string `GET`. -/
def kvGet {α : Type} : List (String × α) → String → Option α
  | [], _ => none
  | (k, v) :: rest, key => if k = key then some v else kvGet rest key

/-- Association-list write, modelling a Redis `SETEX` payload update. -/
def kvSet {α : Type} : List (String × α) → String → α → List (String × α)
  | [], key, v => [(key, v)]
  | (k, w) :: rest, key, v =>
    if k = key then (key, v) :: rest else (k, w) :: kvSet rest key v

/-- Association-list delete, modelling a Redis `DEL`. -/
def kvDel {α : Type} : List (String × α) → String → List (String × α)
  | [], _ => []
  | (k, w) :: rest, key =>
    if k = key then kvDel rest key else (k, w) :: kvDel rest key

/-- The per-user slice of the Redis state that `dequeueSales` touches: the queue
entries (deserialized sale batches, each sale an opaque tag), their TTLs in
seconds, and the user's key index set.  JSON round-tripping is the identity on
well-formed entries and is not modelled; corrupted-payload cleanup is therefore
out of scope. -/
structure RedisQueueState where
  store : List (String × List ℕ)
  ttl : List (String × ℤ)
  index : List String
deriving DecidableEq

/-- Result of `dequeueSales`: the returned batch, the key served, the state left
behind. -/
structure DequeueResult where
  sales : List ℕ
  key : Option String
  state : RedisQueueState
deriving DecidableEq

/-- Embeds `dequeueSales` (src/lib/redis-queue.ts, lines 84-150): pick the
lexicographically smallest key of the user's index; if its entry fits in
`limit`, return it whole and delete key and index membership; otherwise return
the first `limit` items and rewrite the entry with the remainder under
`max(ttl, 300)` seconds.  A missing entry is only dropped from the index.
Redis `TTL` reports `-2` for a missing key, hence the default. -/
def dequeueSales (st : RedisQueueState) (limit : ℕ) : DequeueResult :=
  match sortStrings st.index with
  | [] => ⟨[], none, st⟩
  | queueKey :: _ =>
    match kvGet st.store queueKey with
    | none => ⟨[], none, ⟨st.store, st.ttl, st.index.filter (fun k => k ≠ queueKey)⟩⟩
    | some allSales =>
      if allSales.length ≤ limit then
        ⟨allSales, some queueKey,
         ⟨kvDel st.store queueKey, kvDel st.ttl queueKey,
          st.index.filter (fun k => k ≠ queueKey)⟩⟩
      else
        ⟨allSales.take limit, some queueKey,
         ⟨kvSet st.store queueKey (allSales.drop limit),
          kvSet st.ttl queueKey (max ((kvGet st.ttl queueKey).getD (-2)) 300),
          st.index⟩⟩

/-- Claim C1: the freight-cost selection of `calcularFreteAdjust` is exactly the
by-logistic-type first-match-wins rule of the spec (base/list for fulfillment,
cross_docking, xd_drop_off and for drop_off; shipping-option/shipment for
self_service; order-level fallback otherwise or when the matched branch is all
null; `0` when that too is null), and the two spec examples evaluate to `-7`
and `-25`. -/
theorem claim_C1_freight_selection :
    (∀ p : FreteAdjustParams, calcularFreteAdjust p = freteSpecSelect p)
  ∧ calcularFreteAdjust ⟨"self_service", some 10, none, some 7, none, none, 1⟩ = -7
  ∧ calcularFreteAdjust ⟨"unknown_type", none, none, none, none, some 25, 1⟩ = -25 := by
  refine ⟨?_, by decide, by decide⟩
  intro p
  obtain ⟨t, bc, lc, oc, sc, orc, q⟩ := p
  by_cases h1 : t ∈ (["fulfillment", "cross_docking", "xd_drop_off"] : List String)
  · have h1' := h1
    simp only [List.mem_cons, List.not_mem_nil, or_false] at h1'
    rcases h1' with rfl | rfl | rfl <;>
      cases bc <;> cases lc <;> cases orc <;>
        simp [calcularFreteAdjust, freteSpecSelect, freteStepPick]
  · by_cases h2 : t = "self_service"
    · subst h2
      cases oc <;> cases sc <;> cases orc <;>
        simp [calcularFreteAdjust, freteSpecSelect, freteStepPick, h1]
    · by_cases h3 : t = "drop_off"
      · subst h3
        cases bc <;> cases lc <;> cases orc <;>
          simp [calcularFreteAdjust, freteSpecSelect, freteStepPick, h1]
      · cases orc <;>
          simp [calcularFreteAdjust, freteSpecSelect, freteStepPick, h1, h2, h3]

/-- Claim C2: with a present, strictly positive cost-of-goods the contribution
margin is `roundCurrency(total + platformFee + freight - cogs)` flagged real;
otherwise it is `roundCurrency(total + platformFee + freight)` flagged not
real; and the two spec examples give `52`/real and `82`/not-real. -/
theorem claim_C2_contribution_margin (total fee frete c : ℚ) :
    (0 < c → calculateMargemContribuicao total (some fee) frete (some c) =
      ⟨roundCurrency (total + fee + frete - c), true⟩)
  ∧ (¬ 0 < c → calculateMargemContribuicao total (some fee) frete (some c) =
      ⟨roundCurrency (total + fee + frete), false⟩)
  ∧ calculateMargemContribuicao total (some fee) frete none =
      ⟨roundCurrency (total + fee + frete), false⟩
  ∧ calculateMargemContribuicao 100 (some (-10)) (-8) (some 30) = ⟨52, true⟩
  ∧ calculateMargemContribuicao 100 (some (-10)) (-8) none = ⟨82, false⟩ := by
  have htaxa : (if fee = 0 then (0 : ℚ) else fee) = fee := by
    split <;> simp_all
  refine ⟨?_, ?_, ?_, ?_, ?_⟩
  · intro h
    simp [calculateMargemContribuicao, htaxa, h]
  · intro h
    simp [calculateMargemContribuicao, htaxa, h]
  · simp [calculateMargemContribuicao, htaxa]
  · have h30 : (0 : ℚ) < 30 := by norm_num
    have : (100 : ℚ) + -10 + -8 - 30 = 52 := by norm_num
    simp only [calculateMargemContribuicao, h30, if_true]
    norm_num
    simp only [roundCurrency, jsRound, jsEpsilon]
    norm_num
  · simp only [calculateMargemContribuicao]
    norm_num
    simp only [roundCurrency, jsRound, jsEpsilon]
    norm_num

/-- Claim C2 witness: the real-margin case at the spec example. -/
theorem claim_C2_contribution_margin_witness :
    calculateMargemContribuicao 100 (some (-10)) (-8) (some 30) =
      ⟨roundCurrency (100 + (-10) + (-8) - 30), true⟩ :=
  (claim_C2_contribution_margin 100 (-10) (-8) 30).1 (by decide)

/-- Claim C8: whenever the selection rule (applied to the derived order cost and
quantity) yields a value of magnitude exactly 999, the wrapper
`calculateFreightAdjustment` discards it: both the adjusted cost and the source
label are `null`. -/
theorem claim_C8_sentinel_discard
    (lt : String) (unitPrice quantity baseCost listCost shippingOptionCost shipmentCost : Option ℚ)
    (h : |calcularFreteAdjust
        ⟨lt, baseCost, listCost, shippingOptionCost, shipmentCost,
          deriveOrderCost unitPrice quantity, quantity.getD 0⟩| = 999) :
    calculateFreightAdjustment (some lt) unitPrice quantity baseCost listCost
      shippingOptionCost shipmentCost = (none, none) := by
  by_cases he : lt = ""
  · simp [calculateFreightAdjustment, he]
  · simp [calculateFreightAdjustment, he, h]

/-- Claim C8 witness: a fulfillment shipment with base cost 999 produces the
sentinel `-999` and is discarded. -/
theorem claim_C8_sentinel_discard_witness :
    calculateFreightAdjustment (some "fulfillment") none none (some 999) none none none =
      (none, none) :=
  claim_C8_sentinel_discard "fulfillment" none none (some 999) none none none (by decide)

/-- Claim C9: `toFiniteNumber` returns `null` or a finite number, never `NaN` or
an infinity: finite numbers pass through, non-finite numbers and empty or
whitespace-only strings give `null`, a string result always comes from a finite
parse, and booleans, `null`, `undefined` and objects give `null`. -/
theorem claim_C9_toFiniteNumber_safety (parseNum : String → JSNum) (v : JSValue) :
    (toFiniteNumber parseNum v = none ∨
      ∃ q, toFiniteNumber parseNum v = some (JSNum.finite q))
  ∧ (∀ n, v = JSValue.num n → jsIsFinite n = true → toFiniteNumber parseNum v = some n)
  ∧ (∀ n, v = JSValue.num n → jsIsFinite n = false → toFiniteNumber parseNum v = none)
  ∧ (∀ s, v = JSValue.str s → jsTrim s = "" → toFiniteNumber parseNum v = none)
  ∧ (∀ s q, v = JSValue.str s → toFiniteNumber parseNum v = some (JSNum.finite q) →
      parseNum s = JSNum.finite q ∧ jsTrim s ≠ "")
  ∧ (∀ b, toFiniteNumber parseNum (JSValue.boolean b) = none)
  ∧ toFiniteNumber parseNum JSValue.jsNull = none
  ∧ toFiniteNumber parseNum JSValue.undef = none
  ∧ toFiniteNumber parseNum JSValue.obj = none := by
  refine ⟨?_, ?_, ?_, ?_, ?_, ?_, ?_, ?_, ?_⟩
  · cases v with
    | num n =>
      cases n <;> simp [toFiniteNumber, jsIsFinite]
    | str s =>
      by_cases ht : jsTrim s = ""
      · simp [toFiniteNumber, ht]
      · cases hp : parseNum s <;> simp [toFiniteNumber, ht, hp, jsIsFinite]
    | boolean b => simp [toFiniteNumber]
    | jsNull => simp [toFiniteNumber]
    | undef => simp [toFiniteNumber]
    | obj => simp [toFiniteNumber]
  · rintro n rfl h
    simp [toFiniteNumber, h]
  · rintro n rfl h
    simp [toFiniteNumber, h]
  · rintro s rfl ht
    simp [toFiniteNumber, ht]
  · rintro s q rfl h
    by_cases ht : jsTrim s = ""
    · simp [toFiniteNumber, ht] at h
    · cases hp : parseNum s <;> simp [toFiniteNumber, ht, hp, jsIsFinite] at h
      all_goals simp_all
  · intro b
    simp [toFiniteNumber]
  · simp [toFiniteNumber]
  · simp [toFiniteNumber]
  · simp [toFiniteNumber]

/-- Claim C9 witness: a finite numeric input passes through unchanged. -/
theorem claim_C9_toFiniteNumber_safety_witness :
    toFiniteNumber (fun _ => JSNum.nan) (JSValue.num (JSNum.finite 5)) =
      some (JSNum.finite 5) :=
  (claim_C9_toFiniteNumber_safety (fun _ => JSNum.nan)
    (JSValue.num (JSNum.finite 5))).2.1 (JSNum.finite 5) rfl (by decide)

theorem dedupGo_sublist (l : List MeliOrderPayload) :
    ∀ seen, (dedupGo seen l).1.Sublist l := by
  induction l with
  | nil => intro seen; simp [dedupGo]
  | cons o rest ih =>
    intro seen
    simp only [dedupGo]
    cases h : extractOrderIdFromPayload o with
    | none => exact (ih seen).cons₂ o
    | some oid =>
      by_cases hm : oid ∈ seen
      · simp only [if_pos hm]
        exact (ih seen).cons o
      · simp only [if_neg hm]
        exact (ih (oid :: seen)).cons₂ o

theorem dedupGo_length (l : List MeliOrderPayload) :
    ∀ seen, (dedupGo seen l).1.length + (dedupGo seen l).2 = l.length := by
  induction l with
  | nil => intro seen; simp [dedupGo]
  | cons o rest ih =>
    intro seen
    simp only [dedupGo]
    cases h : extractOrderIdFromPayload o with
    | none =>
      have := ih seen
      simp only [List.length_cons]
      omega
    | some oid =>
      by_cases hm : oid ∈ seen
      · have := ih seen
        simp only [if_pos hm, List.length_cons]
        omega
      · have := ih (oid :: seen)
        simp only [if_neg hm, List.length_cons]
        omega

theorem dedupGo_filter_of_seen (l : List MeliOrderPayload) :
    ∀ seen oid, oid ∈ seen →
      (dedupGo seen l).1.filter (hasId oid) = [] := by
  induction l with
  | nil => intro seen oid _; simp [dedupGo]
  | cons o rest ih =>
    intro seen oid hseen
    simp only [dedupGo]
    cases h : extractOrderIdFromPayload o with
    | none =>
      have hno : hasId oid o = false := by simp [hasId, h]
      simp [List.filter_cons, hno, ih seen oid hseen]
    | some oid2 =>
      by_cases hm : oid2 ∈ seen
      · simp only [if_pos hm]
        exact ih seen oid hseen
      · have hne : oid2 ≠ oid := fun he => hm (he ▸ hseen)
        have hno : hasId oid o = false := by simp [hasId, h, hne]
        simp only [if_neg hm, List.filter_cons, hno]
        simp only [Bool.false_eq_true, if_false]
        exact ih (oid2 :: seen) oid (List.mem_cons_of_mem _ hseen)

theorem dedupGo_filter_head (l : List MeliOrderPayload) :
    ∀ seen oid, oid ∉ seen →
      ((dedupGo seen l).1.filter (hasId oid)).head? = (l.filter (hasId oid)).head?
      ∧ ((dedupGo seen l).1.filter (hasId oid)).length ≤ 1 := by
  induction l with
  | nil => intro seen oid _; simp [dedupGo]
  | cons o rest ih =>
    intro seen oid hseen
    simp only [dedupGo]
    cases h : extractOrderIdFromPayload o with
    | none =>
      have hno : hasId oid o = false := by simp [hasId, h]
      simpa [List.filter_cons, hno] using ih seen oid hseen
    | some oid2 =>
      by_cases hm : oid2 ∈ seen
      · have hne : oid2 ≠ oid := fun he => hseen (he ▸ hm)
        have hno : hasId oid o = false := by simp [hasId, h, hne]
        simp only [if_pos hm, List.filter_cons, hno]
        simpa using ih seen oid hseen
      · by_cases heq : oid2 = oid
        · subst heq
          have hyes : hasId oid2 o = true := by simp [hasId, h]
          have hrest := dedupGo_filter_of_seen rest (oid2 :: seen) oid2
            (List.mem_cons_self _ _)
          simp [if_neg hm, List.filter_cons, hyes, hrest]
        · have hno : hasId oid o = false := by
            simp [hasId, h]
            exact heq
          have hseen2 : oid ∉ oid2 :: seen := by
            intro hmem
            rcases List.mem_cons.1 hmem with he | he
            · exact heq he.symm
            · exact hseen he
          simp only [if_neg hm, List.filter_cons, hno]
          simpa using ih (oid2 :: seen) oid hseen2

theorem dedupGo_countNone (l : List MeliOrderPayload) :
    ∀ seen,
      (dedupGo seen l).1.countP (fun o => (extractOrderIdFromPayload o).isNone) =
      l.countP (fun o => (extractOrderIdFromPayload o).isNone) := by
  induction l with
  | nil => intro seen; simp [dedupGo]
  | cons o rest ih =>
    intro seen
    simp only [dedupGo]
    cases h : extractOrderIdFromPayload o with
    | none =>
      simp [List.countP_cons, h, ih seen]
    | some oid =>
      by_cases hm : oid ∈ seen
      · simp [if_pos hm, List.countP_cons, h, ih seen]
      · simp [if_neg hm, List.countP_cons, h, ih (oid :: seen)]

theorem card_insert_sdiff {α : Type} [DecidableEq α] (S T : Finset α) (a : α)
    (h : a ∉ T) : (insert a S \ T).card = (S \ insert a T).card + 1 := by
  have h1 : insert a S \ T = insert a (S \ T) := by
    ext x
    by_cases hx : x = a
    · subst hx; simp [h]
    · simp [Finset.mem_sdiff, Finset.mem_insert, hx]
  have h2 : S \ insert a T = (S \ T).erase a := by
    ext x
    simp only [Finset.mem_sdiff, Finset.mem_insert, Finset.mem_erase]
    tauto
  rw [h1, h2]
  by_cases hm : a ∈ S \ T
  · rw [Finset.insert_eq_self.2 hm, Finset.card_erase_of_mem hm]
    have hpos : 0 < (S \ T).card := Finset.card_pos.2 ⟨a, hm⟩
    omega
  · rw [Finset.card_insert_of_not_mem hm, Finset.erase_eq_of_not_mem hm]

theorem dedupGo_unique_length (l : List MeliOrderPayload) :
    ∀ (seen : List String),
      (dedupGo seen l).1.length =
        l.countP (fun o => (extractOrderIdFromPayload o).isNone) +
        ((extractableIds l).toFinset \ seen.toFinset).card := by
  induction l with
  | nil => intro seen; simp [dedupGo, extractableIds]
  | cons o rest ih =>
    intro seen
    simp only [dedupGo]
    cases h : extractOrderIdFromPayload o with
    | none =>
      have hids : extractableIds (o :: rest) = extractableIds rest := by
        simp [extractableIds, List.filterMap_cons, h]
      simp only [List.length_cons, hids, List.countP_cons, h, Option.isNone_none,
        eq_self_iff_true, if_true]
      have := ih seen
      omega
    | some oid =>
      have hids : extractableIds (o :: rest) = oid :: extractableIds rest := by
        simp [extractableIds, List.filterMap_cons, h]
      by_cases hm : oid ∈ seen
      · have hIn : oid ∈ seen.toFinset := List.mem_toFinset.2 hm
        have hsd : (extractableIds (o :: rest)).toFinset \ seen.toFinset =
            (extractableIds rest).toFinset \ seen.toFinset := by
          ext x
          by_cases hx : x = oid
          · subst hx; simp [hIn]
          · simp [hids, hx]
        simp only [if_pos hm, hsd, List.countP_cons, h]
        simpa using ih seen
      · have hNotIn : oid ∉ seen.toFinset := fun hc => hm (List.mem_toFinset.1 hc)
        have hcard := card_insert_sdiff (extractableIds rest).toFinset seen.toFinset
          oid hNotIn
        have hins : (extractableIds (o :: rest)).toFinset =
            insert oid (extractableIds rest).toFinset := by
          simp [hids]
        have hseen2 : (oid :: seen).toFinset = insert oid seen.toFinset := by
          simp
        simp only [if_neg hm, List.length_cons, hins, List.countP_cons, h,
          Option.isNone_some, Bool.false_eq_true, if_false]
        have := ih (oid :: seen)
        rw [hseen2] at this
        omega

theorem length_countNone_add_ids (l : List MeliOrderPayload) :
    l.length = l.countP (fun o => (extractOrderIdFromPayload o).isNone) +
      (extractableIds l).length := by
  induction l with
  | nil => simp [extractableIds]
  | cons o rest ih =>
    cases h : extractOrderIdFromPayload o with
    | none =>
      simp only [List.length_cons, List.countP_cons, h, Option.isNone_none,
        extractableIds, List.filterMap_cons, eq_self_iff_true, if_true]
      simp only [extractableIds] at ih
      omega
    | some oid =>
      simp only [List.length_cons, List.countP_cons, h,
        extractableIds, List.filterMap_cons, Option.isNone_some,
        Bool.false_eq_true, if_false]
      simp only [extractableIds] at ih
      omega

/-- Claim C5 counterexample: a batch with the external order id "a" repeated
(plus one order without an extractable id).  The engine keeps the id-less order
and reports 1 duplicate, while `batchSize - distinctIds` is `3 - 1 = 2`. -/
theorem claim_C5_counterexample :
    ¬ ((deduplicateOrders
          [(⟨some ⟨some "a"⟩, 0⟩ : MeliOrderPayload), ⟨some ⟨some "a"⟩, 1⟩,
           ⟨none, 2⟩]).2 =
        ([(⟨some ⟨some "a"⟩, 0⟩ : MeliOrderPayload), ⟨some ⟨some "a"⟩, 1⟩,
          ⟨none, 2⟩]).length -
          distinctIdCount
            [(⟨some ⟨some "a"⟩, 0⟩ : MeliOrderPayload), ⟨some ⟨some "a"⟩, 1⟩,
             ⟨none, 2⟩]) := by
  decide

/-- Claim C5 (amended): one invocation writes each distinct extractable external
id at most once, and the reported duplicate count equals the number of orders
with an extractable id minus the number of distinct extractable ids — which
equals `batchSize - distinctIds` exactly when (if and only if) every order of
the batch has an extractable id. -/
theorem claim_C5_dedup_invariant (orders : List MeliOrderPayload) :
    (∀ oid, (deduplicateOrders orders).1.countP (hasId oid) ≤ 1)
  ∧ (deduplicateOrders orders).2 =
      (extractableIds orders).length - distinctIdCount orders
  ∧ ((deduplicateOrders orders).2 = orders.length - distinctIdCount orders ↔
      (∀ o ∈ orders, (extractOrderIdFromPayload o).isSome = true)) := by
  have hlen := dedupGo_length orders []
  have huniq := dedupGo_unique_length orders []
  have hsplit := length_countNone_add_ids orders
  have hcard : distinctIdCount orders = (extractableIds orders).toFinset.card := by
    rw [distinctIdCount, List.card_toFinset]
  have hdle : distinctIdCount orders ≤ (extractableIds orders).length := by
    rw [distinctIdCount]
    exact (List.dedup_sublist _).length_le
  have hsd : ((extractableIds orders).toFinset \ ([] : List String).toFinset).card =
      (extractableIds orders).toFinset.card := by simp
  rw [hsd] at huniq
  refine ⟨?_, ?_, ?_, ?_⟩
  · intro oid
    have hh := (dedupGo_filter_head orders [] oid (List.not_mem_nil oid)).2
    simpa [deduplicateOrders, List.countP_eq_length_filter] using hh
  · simp only [deduplicateOrders]
    omega
  · intro heq
    simp only [deduplicateOrders] at heq
    have hnone : orders.countP (fun o => (extractOrderIdFromPayload o).isNone) = 0 := by
      omega
    intro o ho
    have hno := List.countP_eq_zero.1 hnone o ho
    cases hx : extractOrderIdFromPayload o <;> simp_all
  · intro hall
    have hnone : orders.countP (fun o => (extractOrderIdFromPayload o).isNone) = 0 := by
      rw [List.countP_eq_zero]
      intro o ho
      have hs := hall o ho
      cases hx : extractOrderIdFromPayload o <;> simp_all
    simp only [deduplicateOrders]
    omega

/-- Claim C5 witness: a batch of three orders with ids a, a, b reports
`3 - 2 = 1` duplicate. -/
theorem claim_C5_dedup_invariant_witness :
    (deduplicateOrders
      [(⟨some ⟨some "a"⟩, 0⟩ : MeliOrderPayload), ⟨some ⟨some "a"⟩, 1⟩,
       ⟨some ⟨some "b"⟩, 2⟩]).2 =
      ([(⟨some ⟨some "a"⟩, 0⟩ : MeliOrderPayload), ⟨some ⟨some "a"⟩, 1⟩,
        ⟨some ⟨some "b"⟩, 2⟩]).length -
        distinctIdCount
          [(⟨some ⟨some "a"⟩, 0⟩ : MeliOrderPayload), ⟨some ⟨some "a"⟩, 1⟩,
           ⟨some ⟨some "b"⟩, 2⟩] :=
  (claim_C5_dedup_invariant
    [(⟨some ⟨some "a"⟩, 0⟩ : MeliOrderPayload), ⟨some ⟨some "a"⟩, 1⟩,
     ⟨some ⟨some "b"⟩, 2⟩]).2.2.mpr (by decide)

/-- Claim C10: deduplication preserves the input order (the output is a sublist),
keeps exactly the first occurrence of every extractable external id (the first
matching element is unchanged and at most one match survives), retains every
order without an extractable id, and counts as duplicates exactly the dropped
elements. -/
theorem claim_C10_dedup_order_preserving (orders : List MeliOrderPayload) :
    (deduplicateOrders orders).1.Sublist orders
  ∧ (∀ oid, ((deduplicateOrders orders).1.filter (hasId oid)).head? =
      (orders.filter (hasId oid)).head?)
  ∧ (∀ oid, ((deduplicateOrders orders).1.filter (hasId oid)).length ≤ 1)
  ∧ (deduplicateOrders orders).1.countP
        (fun o => (extractOrderIdFromPayload o).isNone) =
      orders.countP (fun o => (extractOrderIdFromPayload o).isNone)
  ∧ (deduplicateOrders orders).1.length + (deduplicateOrders orders).2 =
      orders.length := by
  refine ⟨dedupGo_sublist orders [], ?_, ?_, dedupGo_countNone orders [],
    dedupGo_length orders []⟩
  · intro oid
    exact (dedupGo_filter_head orders [] oid (List.not_mem_nil oid)).1
  · intro oid
    exact (dedupGo_filter_head orders [] oid (List.not_mem_nil oid)).2

theorem retryable_facts (s : ℕ) (h : isRetryableError s = true) :
    respOk s = false ∧ ¬(s = 401 ∨ s = 403) := by
  have hm : s ∈ ([429, 500, 502, 503, 504] : List ℕ) := by
    simpa [isRetryableError] using h
  fin_cases hm <;> decide

/-- Claim C4: under a 3-attempt budget, 401/403 responses return immediately
after one attempt; exactly 429/500/502/503/504 are classified retryable; any
other non-OK status returns as-is after one attempt; a network failure is
retried (a later OK response is returned); three retryable statuses exhaust
the budget and return the last response; three network failures exhaust the
budget and raise the last error. -/
theorem claim_C4_retry_transport (outcomes : ℕ → FetchOutcome) :
    (∀ s, outcomes 0 = FetchOutcome.resp s → (s = 401 ∨ s = 403) →
      fetchWithRetry outcomes 3 = (FetchResult.success s, 1))
  ∧ (∀ s, isRetryableError s = true ↔
      (s = 429 ∨ s = 500 ∨ s = 502 ∨ s = 503 ∨ s = 504))
  ∧ (∀ s, outcomes 0 = FetchOutcome.resp s → respOk s = false →
      ¬(s = 401 ∨ s = 403) → isRetryableError s = false →
      fetchWithRetry outcomes 3 = (FetchResult.success s, 1))
  ∧ (∀ m s, outcomes 0 = FetchOutcome.netErr m → outcomes 1 = FetchOutcome.resp s →
      respOk s = true → fetchWithRetry outcomes 3 = (FetchResult.success s, 2))
  ∧ (∀ s0 s1 s2, outcomes 0 = FetchOutcome.resp s0 → outcomes 1 = FetchOutcome.resp s1 →
      outcomes 2 = FetchOutcome.resp s2 → isRetryableError s0 = true →
      isRetryableError s1 = true → isRetryableError s2 = true →
      fetchWithRetry outcomes 3 = (FetchResult.success s2, 3))
  ∧ (∀ m0 m1 m2, outcomes 0 = FetchOutcome.netErr m0 →
      outcomes 1 = FetchOutcome.netErr m1 → outcomes 2 = FetchOutcome.netErr m2 →
      fetchWithRetry outcomes 3 = (FetchResult.thrown m2, 3)) := by
  refine ⟨?_, ?_, ?_, ?_, ?_, ?_⟩
  · intro s h0 hs
    rcases hs with rfl | rfl <;>
      simp [fetchWithRetry, fetchWithRetryGo, h0, respOk]
  · intro s
    simp [isRetryableError, List.mem_cons]
  · intro s h0 hok hauth hr
    simp [fetchWithRetry, fetchWithRetryGo, h0, hok, hauth, hr]
  · intro m s h0 h1 hok
    simp [fetchWithRetry, fetchWithRetryGo, h0, h1, hok]
  · intro s0 s1 s2 h0 h1 h2 hr0 hr1 hr2
    obtain ⟨hok0, hauth0⟩ := retryable_facts s0 hr0
    obtain ⟨hok1, hauth1⟩ := retryable_facts s1 hr1
    obtain ⟨hok2, hauth2⟩ := retryable_facts s2 hr2
    simp [fetchWithRetry, fetchWithRetryGo, h0, h1, h2, hr0, hr1, hr2,
      hok0, hok1, hok2, hauth0, hauth1, hauth2]
  · intro m0 m1 m2 h0 h1 h2
    simp [fetchWithRetry, fetchWithRetryGo, h0, h1, h2]

/-- Claim C4 witness: three consecutive HTTP 500 responses exhaust the budget
and the last response is returned, not raised. -/
theorem claim_C4_retry_transport_witness :
    fetchWithRetry (fun _ => FetchOutcome.resp 500) 3 = (FetchResult.success 500, 3) :=
  (claim_C4_retry_transport (fun _ => FetchOutcome.resp 500)).2.2.2.2.1
    500 500 500 rfl rfl rfl (by decide) (by decide) (by decide)

theorem splitNoFuel (n : ℕ) :
    splitLeaves (fun _ _ => 10000) n 0 dayMs = none ∧
    splitLoop (fun _ _ => 10000) n 0 dayMs (subPeriodDaysOf 10000 * dayMs) = none := by
  induction n with
  | zero => exact ⟨rfl, rfl⟩
  | succ n ih =>
    constructor
    · simp only [splitLeaves]
      rw [if_pos (by norm_num [maxOffsetCeiling])]
      exact ih.2
    · simp only [splitLoop]
      rw [if_pos (by norm_num [dayMs])]
      have he : min ((0 : ℤ) + subPeriodDaysOf 10000 * dayMs) dayMs = dayMs := by
        norm_num [subPeriodDaysOf, dayMs]
      rw [he, ih.1]

/-- Claim C3 (exhibit of the failing input): on a one-day range whose count
probe always reports 10 000 (above the 9 950 ceiling), the period splitter of
`fetchOrdersInDateRange` never terminates — the first sub-range
`min(currentStart + 14 days, dateTo)` equals the whole parent range, so every
recursion depth (`fuel`) is exhausted, contradicting the guaranteed-termination
and strictly-decreasing-sub-range claim. -/
theorem claim_C3_splitter_divergence :
    ∀ fuel : ℕ, splitLeaves (fun _ _ => 10000) fuel 0 dayMs = none :=
  fun fuel => (splitNoFuel fuel).1

/-- Claim C6 counterexample: with an explicit `quickMode = false` request, no
full sync, no forced stop and `fetched (0) < expected (1)`, the flag stays
unset even though total fetched is below total expected — refuting the claimed
"if and only if". -/
theorem claim_C6_counterexample :
    ¬ (((finishSync ⟨[], some false, none⟩ false 0 1).hasMore = true) ↔
        (false = true ∨ 0 < 1)) := by
  decide

/-- Claim C6 (amended): the "more work remains" flag is set iff some account was
forced-stopped, or the run is in fullSync or quickMode and total fetched is
below total expected; whenever set, the follow-up invocation carries the raw
request parameters, and the notification channels are closed exactly when the
flag is not set. -/
theorem claim_C6_more_work_flag (rb : SyncRequestBody) (forcedStop : Bool)
    (totalFetched totalExpected : ℕ) :
    ((finishSync rb forcedStop totalFetched totalExpected).hasMore = true ↔
      (forcedStop = true ∨ ((deriveFullSync rb || deriveQuickMode rb) = true ∧
        totalFetched < totalExpected)))
  ∧ ((finishSync rb forcedStop totalFetched totalExpected).hasMore = true →
      (finishSync rb forcedStop totalFetched totalExpected).followUp =
        some (rb.accountIds, rb.quickMode, rb.fullSync))
  ∧ ((finishSync rb forcedStop totalFetched totalExpected).connectionsClosed = true ↔
      (finishSync rb forcedStop totalFetched totalExpected).hasMore = false) := by
  refine ⟨?_, ?_, ?_⟩
  · simp [finishSync, hasMoreToSync]
  · intro h
    simp only [finishSync, hasMoreToSync] at h ⊢
    simp [h]
  · simp [finishSync]

/-- Claim C6 witness: a forced-stopped run schedules the follow-up with the raw
request parameters. -/
theorem claim_C6_more_work_flag_witness :
    (finishSync ⟨["acc"], none, none⟩ true 0 0).followUp = some (["acc"], none, none) :=
  (claim_C6_more_work_flag ⟨["acc"], none, none⟩ true 0 0).2.1 (by decide)

theorem charListLe_refl (l : List Char) : charListLe l l = true := by
  induction l with
  | nil => rfl
  | cons x xs ih => simp [charListLe, ih]

theorem charListLe_total (a b : List Char) :
    charListLe a b = true ∨ charListLe b a = true := by
  induction a generalizing b with
  | nil => left; rfl
  | cons x xs ih =>
    cases b with
    | nil => right; rfl
    | cons y ys =>
      by_cases hxy : x = y
      · subst hxy
        simpa [charListLe] using ih ys
      · rcases lt_or_gt_of_ne hxy with h | h
        · left; simp [charListLe, hxy, h]
        · right; simp [charListLe, Ne.symm hxy, h]

theorem charListLe_trans (a b c : List Char) (hab : charListLe a b = true)
    (hbc : charListLe b c = true) : charListLe a c = true := by
  induction a generalizing b c with
  | nil => rfl
  | cons x xs ih =>
    cases b with
    | nil => simp [charListLe] at hab
    | cons y ys =>
      cases c with
      | nil => simp [charListLe] at hbc
      | cons z zs =>
        by_cases hxy : x = y
        · subst hxy
          simp only [charListLe, if_pos rfl] at hab
          by_cases hyz : x = z
          · subst hyz
            simp only [charListLe, if_pos rfl] at hbc ⊢
            exact ih ys zs hab hbc
          · simp only [charListLe, if_neg hyz] at hbc ⊢
            exact hbc
        · simp only [charListLe, if_neg hxy] at hab
          have hxy' : x < y := by simpa using hab
          by_cases hyz : y = z
          · subst hyz
            simp [charListLe, hxy, hxy']
          · simp only [charListLe, if_neg hyz] at hbc
            have hyz' : y < z := by simpa using hbc
            have hxz : x < z := lt_trans hxy' hyz'
            have hne : x ≠ z := ne_of_lt hxz
            simp [charListLe, hne, hxz]

theorem strLe_refl (a : String) : strLe a a = true := charListLe_refl a.data

theorem strLe_total (a b : String) : strLe a b = true ∨ strLe b a = true :=
  charListLe_total a.data b.data

theorem strLe_trans (a b c : String) (hab : strLe a b = true)
    (hbc : strLe b c = true) : strLe a c = true :=
  charListLe_trans a.data b.data c.data hab hbc

theorem mem_insertSorted (a x : String) (s : List String) :
    x ∈ insertSorted a s ↔ x = a ∨ x ∈ s := by
  induction s with
  | nil => simp [insertSorted]
  | cons y ys ih =>
    by_cases h : strLe a y = true
    · simp [insertSorted, h, List.mem_cons]
    · simp [insertSorted, h, List.mem_cons, ih]
      tauto

theorem mem_sortStrings (l : List String) (x : String) :
    x ∈ sortStrings l ↔ x ∈ l := by
  induction l with
  | nil => simp [sortStrings]
  | cons a as ih =>
    simp [sortStrings, mem_insertSorted, ih, List.mem_cons]

theorem sortStrings_head_lb (l : List String) :
    ∀ k rest, sortStrings l = k :: rest → ∀ x ∈ l, strLe k x = true := by
  induction l with
  | nil => intro k rest h; simp [sortStrings] at h
  | cons a as ih =>
    intro k rest h x hx
    cases hs : sortStrings as with
    | nil =>
      have hempty : as = [] := by
        cases as with
        | nil => rfl
        | cons b bs =>
          have : b ∈ sortStrings (b :: bs) := (mem_sortStrings _ _).2 (List.mem_cons_self _ _)
          rw [hs] at this
          exact absurd this (List.not_mem_nil b)
      subst hempty
      simp only [sortStrings, hs, insertSorted] at h
      obtain ⟨rfl, -⟩ := List.cons.inj h
      rcases List.mem_cons.1 hx with rfl | hx2
      · exact strLe_refl x
      · exact absurd hx2 (List.not_mem_nil x)
    | cons b bs =>
      have hblb := ih b bs hs
      simp only [sortStrings, hs, insertSorted] at h
      by_cases hab : strLe a b = true
      · rw [if_pos hab] at h
        obtain ⟨hak, -⟩ := List.cons.inj h
        rw [← hak]
        rcases List.mem_cons.1 hx with hxa | hx2
        · rw [hxa]; exact strLe_refl a
        · exact strLe_trans a b x hab (hblb x hx2)
      · rw [if_neg hab] at h
        obtain ⟨hbk, -⟩ := List.cons.inj h
        rw [← hbk]
        rcases List.mem_cons.1 hx with hxa | hx2
        · rw [hxa]
          rcases strLe_total a b with hko | hko
          · exact absurd hko hab
          · exact hko
        · exact hblb x hx2

theorem kvGet_kvDel {α : Type} (s : List (String × α)) (k : String) :
    kvGet (kvDel s k) k = none := by
  induction s with
  | nil => rfl
  | cons p rest ih =>
    obtain ⟨k0, v0⟩ := p
    by_cases h : k0 = k
    · simp [kvDel, h, ih]
    · simp [kvDel, kvGet, h, ih]

theorem kvGet_kvSet {α : Type} (s : List (String × α)) (k : String) (v : α) :
    kvGet (kvSet s k v) k = some v := by
  induction s with
  | nil => simp [kvSet, kvGet]
  | cons p rest ih =>
    obtain ⟨k0, v0⟩ := p
    by_cases h : k0 = k
    · simp [kvSet, h, kvGet]
    · simp [kvSet, kvGet, h, ih]

/-- Claim C7: `dequeueSales` serves the lexicographically smallest key of the
user's index and never loses items: an entry of at most `limit` items is
returned whole and fully deleted; a larger entry yields exactly its first
`limit` items, the rewritten remainder reassembles the original entry, and the
refreshed TTL is at least 300 seconds. -/
theorem claim_C7_dequeue_fifo (st : RedisQueueState) (limit : ℕ) (k : String)
    (E : List ℕ) (hk : (sortStrings st.index).head? = some k)
    (hE : kvGet st.store k = some E) :
    (k ∈ st.index ∧ ∀ k2 ∈ st.index, strLe k k2 = true)
  ∧ (dequeueSales st limit).key = some k
  ∧ (E.length ≤ limit →
      (dequeueSales st limit).sales = E
      ∧ kvGet (dequeueSales st limit).state.store k = none
      ∧ k ∉ (dequeueSales st limit).state.index)
  ∧ (limit < E.length →
      (dequeueSales st limit).sales = E.take limit
      ∧ kvGet (dequeueSales st limit).state.store k = some (E.drop limit)
      ∧ (dequeueSales st limit).sales ++ E.drop limit = E
      ∧ ∃ t, kvGet (dequeueSales st limit).state.ttl k = some t ∧ 300 ≤ t) := by
  cases hsort : sortStrings st.index with
  | nil => rw [hsort] at hk; simp at hk
  | cons k0 rest =>
    rw [hsort] at hk
    simp only [List.head?_cons, Option.some.injEq] at hk
    subst hk
    have hmem : k0 ∈ st.index := (mem_sortStrings _ _).1 (hsort ▸ List.mem_cons_self _ _)
    have hlb : ∀ x ∈ st.index, strLe k0 x = true := sortStrings_head_lb st.index k0 rest hsort
    refine ⟨⟨hmem, hlb⟩, ?_, ?_, ?_⟩
    · simp only [dequeueSales, hsort, hE]
      by_cases hlen : E.length ≤ limit
      · simp [hlen]
      · simp [hlen]
    · intro hlen
      simp only [dequeueSales, hsort, hE, if_pos hlen]
      refine ⟨?_, kvGet_kvDel st.store k0, ?_⟩
      · trivial
      · simp [List.mem_filter]
    · intro hlen
      have hlen2 : ¬ E.length ≤ limit := not_le.2 hlen
      simp only [dequeueSales, hsort, hE, if_neg hlen2]
      refine ⟨?_, kvGet_kvSet st.store k0 (E.drop limit), ?_, ?_⟩
      · trivial
      · exact List.take_append_drop limit E
      · exact ⟨max ((kvGet st.ttl k0).getD (-2)) 300, kvGet_kvSet st.ttl k0 _, le_max_right _ _⟩

/-- Claim C7 witness: with index keys q2, q1 the entry of q1 (three sales) is
dequeued with limit 2; the batch plus the rewritten remainder reassembles the
original entry. -/
theorem claim_C7_dequeue_fifo_witness :
    (dequeueSales ⟨[("q1", [1, 2, 3])], [("q1", 10)], ["q2", "q1"]⟩ 2).sales ++
      (([1, 2, 3] : List ℕ).drop 2) = [1, 2, 3] :=
  ((claim_C7_dequeue_fifo ⟨[("q1", [1, 2, 3])], [("q1", 10)], ["q2", "q1"]⟩ 2 "q1"
    [1, 2, 3] (by decide) (by decide)).2.2.2 (by decide)).2.2.1
